import Mathlib

/-!
# Verification of the `hug` byte stack (`src/stack.c`)

A shallow embedding of the C byte stack in `src/stack.c` and proofs of the
specified properties.

Modelling choices:

* The C `Stack` struct (declared in `stack.h`, used in `stack.c` as
  `dataSize`, `stackPointer`, `data`) becomes a Lean structure with the
  same field names.  `dataSize` is the capacity, `stackPointer` the
  logical length.
* The backing store `char *data` is modelled as a total function
  `Nat → Nat` over byte offsets; `malloc`/`realloc` never change the
  modelled contents (realloc preserves the old prefix, and bytes past it
  are whatever the memory function says, matching indeterminate memory).
  A store `data[i] = v` is a pointwise function update (`writeMem`).
* `unsigned long` is 64 bits, so all counters range over `[0, M)` with
  `M = 2 ^ 64`.  The operations that can wrap are the `--stackPointer`
  decrement (`decM`, which sends `0` to `M - 1`), the
  `dataSize += step` growth (`addM`), and the `to - from` subtraction
  in `getStackSlice` (written with an explicit `% M`).  `decM` and
  `addM` agree with `(· + (M - 1)) % M` and `(· + ·) % M` on
  representable inputs (`decM_eq_mod`, `addM_eq_mod`); every
  `unsigned long` in a running C program is representable.
* Modelled from the spec: the configuration provider (`config.h`, not
  part of the sources) supplies `initialStackSize` at creation and
  `stackExpansionStepSize` "consulted fresh on every growth".  It is
  modelled as parameters: `newStack` takes the initial size, and push
  takes a step oracle `step : Nat → Nat` together with a fetch counter
  `k`; the `k`-th call of `getStackExpansionStepSize()` returns
  `step k`, and the counter advances by one at each growth event.
* The unbounded C `while` loop growing the capacity is modelled with
  explicit fuel `stackPointer + 1`, which is enough iterations whenever
  every fetched step is positive and the capacity does not wrap
  (the configuration contract: steps are positive integers).
-/

/-- `2 ^ 64`, the modulus of C `unsigned long` arithmetic. -/
def M : Nat := 2 ^ 64

/-- The 64-bit decrement: `0` wraps to `M - 1`; on `1 ≤ a < M` it is
`a - 1`.  This is `--x` on `unsigned long`. -/
def decM : Nat → Nat
  | 0 => M - 1
  | n + 1 => n

/-- The 64-bit addition: on `a, b < M` it is `(a + b) % M`.  This is
`x + y` on `unsigned long`. -/
def addM (a b : Nat) : Nat := if a + b < M then a + b else a + b - M

/-- The `Stack` struct: capacity, stack pointer (logical length) and
backing store, in the initializer order of `newStack`. -/
structure Stack where
  dataSize : Nat
  stackPointer : Nat
  data : Nat → Nat

/-- A byte store `data[i] = v` on the modelled memory. -/
def writeMem (f : Nat → Nat) (i v : Nat) : Nat → Nat :=
  fun j => if j = i then v else f j

/-- `newStack()`: capacity `initialStackSize`, stack pointer `0`,
freshly allocated memory with indeterminate contents `mem`. -/
def newStack (initialStackSize : Nat) (mem : Nat → Nat) : Stack :=
  { dataSize := initialStackSize, stackPointer := 0, data := mem }

/-- The `while (stackPointer >= dataSize) { dataSize += step; realloc }`
loop of `pushToStack`, with fetch counter `k` and explicit fuel.
Returns the new capacity and the new fetch counter.  Reallocation
preserves the buffer contents, so only the sizes evolve here. -/
def growLoop (step : Nat → Nat) (sp : Nat) : Nat → Nat → Nat → Nat × Nat
  | 0, ds, k => (ds, k)
  | fuel + 1, ds, k =>
    if ds ≤ sp then growLoop step sp fuel (addM ds (step k)) (k + 1)
    else (ds, k)

/-- One iteration of the `pushToStack` body: grow until
`stackPointer < dataSize`, then `data[stackPointer++] = b`. -/
def pushByte (step : Nat → Nat) : Stack × Nat → Nat → Stack × Nat
  | (s, k), b =>
    let g := growLoop step s.stackPointer (s.stackPointer + 1) s.dataSize k
    ({ dataSize := g.1,
       stackPointer := addM s.stackPointer 1,
       data := writeMem s.data s.stackPointer b }, g.2)

/-- `pushToStack(stack, data, dataSize)`: the byte span is the list `S`
(`dataSize = S.length`); `k` is the configuration fetch counter. -/
def pushToStack (step : Nat → Nat) (s : Stack) (k : Nat) (S : List Nat) :
    Stack × Nat :=
  S.foldl (pushByte step) (s, k)

/-- One iteration of the pop loops:
`data[--stackPointer] = 0`, with the 64-bit decrement. -/
def popOne (s : Stack) : Stack :=
  let sp := decM s.stackPointer
  { dataSize := s.dataSize, stackPointer := sp, data := writeMem s.data sp 0 }

/-- `popStackWithoutBuffer(stack, dataSize)`: `dataSize` times
`data[--stackPointer] = 0`. -/
def popStackWithoutBuffer : Stack → Nat → Stack
  | s, 0 => s
  | s, n + 1 => popStackWithoutBuffer (popOne s) n

/-- `popStackToBuffer(stack, buffer, dataSize)`: `dataSize` times
`buffer[i] = data[--stackPointer]; data[stackPointer] = 0`.  Returns the
final stack and the bytes written to `buffer`, in index order. -/
def popStackToBuffer : Stack → Nat → Stack × List Nat
  | s, 0 => (s, [])
  | s, n + 1 =>
    let sp := decM s.stackPointer
    let b := s.data sp
    let r := popStackToBuffer
      { dataSize := s.dataSize, stackPointer := sp,
        data := writeMem s.data sp 0 } n
    (r.1, b :: r.2)

/-- `popStack(stack, dataSize)`: `malloc` a `dataSize`-byte buffer and
delegate to `popStackToBuffer`, which overwrites all of it; the result
list is the returned buffer. -/
def popStack (s : Stack) (n : Nat) : Stack × List Nat :=
  popStackToBuffer s n

/-- `getStackSlice(stack, from, to)`: `malloc(to - from)` and copy
`data[from + i]` for `i < to - from`, in `unsigned long` arithmetic
(the slice length `to - from` is the 64-bit difference).
`from`/`to` are reserved words in Lean; the parameters are named
`fr`/`tc`. -/
def getStackSlice (s : Stack) (fr tc : Nat) : List Nat :=
  (List.range ((tc + (M - fr % M)) % M)).map (fun i => s.data ((fr + i) % M))

/-- One stack operation, for reasoning about operation sequences.  A
push carries its byte span and the step oracle for the growth events it
performs; a slice carries its bounds. -/
inductive Op where
  | push : List Nat → (Nat → Nat) → Op
  | popDiscard : Nat → Op
  | popBuf : Nat → Op
  | pop : Nat → Op
  | slice : Nat → Nat → Op

/-- The state transformation of one operation.  `getStackSlice` reads
the struct through its pointer but assigns no field and no byte, so its
state effect is the identity. -/
def applyOp (s : Stack) : Op → Stack
  | Op.push S step => (pushToStack step s 0 S).1
  | Op.popDiscard n => popStackWithoutBuffer s n
  | Op.popBuf n => (popStackToBuffer s n).1
  | Op.pop n => (popStack s n).1
  | Op.slice _ _ => s

/-- Run a sequence of operations. -/
def runOps (s : Stack) (ops : List Op) : Stack :=
  ops.foldl applyOp s

/-- Bytes pushed by one operation. -/
def pushedBytes : Op → Nat
  | Op.push S _ => S.length
  | _ => 0

/-- Bytes popped by one operation. -/
def poppedBytes : Op → Nat
  | Op.popDiscard n => n
  | Op.popBuf n => n
  | Op.pop n => n
  | _ => 0

/-- Total bytes pushed by a sequence. -/
def totalPushed (ops : List Op) : Nat :=
  (ops.map pushedBytes).sum

/-- Total bytes popped by a sequence. -/
def totalPopped (ops : List Op) : Nat :=
  (ops.map poppedBytes).sum

/-- Well-formedness of a stack state: the stack pointer is within the
allocation and the capacity fits in `unsigned long`. -/
def StackInv (s : Stack) : Prop :=
  s.stackPointer ≤ s.dataSize ∧ s.dataSize < M

/-- Side conditions for one operation from state `s`: pops do not
exceed the current length (the claims' precondition), and a push
fetches only positive steps bounded by `B`, small enough that no
counter wraps. -/
def okOp (B : Nat) (s : Stack) : Op → Prop
  | Op.push S step => (∀ j, 1 ≤ step j ∧ step j ≤ B) ∧
      s.stackPointer + S.length + B ≤ M
  | Op.popDiscard n => n ≤ s.stackPointer
  | Op.popBuf n => n ≤ s.stackPointer
  | Op.pop n => n ≤ s.stackPointer
  | Op.slice _ _ => True

/-- Every operation of the sequence satisfies its side condition in the
state where it runs. -/
def validTrace (B : Nat) (s : Stack) : List Op → Prop
  | [] => True
  | op :: ops => okOp B s op ∧ validTrace B (applyOp s op) ops

/-! ## The wrapped operations agree with `unsigned long` arithmetic -/

theorem M_pos : 0 < M := by norm_num [M]

/-- On representable inputs, `decM` is the modular decrement of
`unsigned long`. -/
theorem decM_eq_mod (a : Nat) (h : a < M) : decM a = (a + (M - 1)) % M := by
  cases a with
  | zero =>
    have h1 : (0 : Nat) + (M - 1) = M - 1 := by omega
    rw [h1, Nat.mod_eq_of_lt (by omega)]
    rfl
  | succ n =>
    have h1 : n + 1 + (M - 1) = n + 1 * M := by omega
    rw [decM, h1, Nat.add_mul_mod_self_right, Nat.mod_eq_of_lt (by omega)]

/-- On representable inputs, `addM` is the modular addition of
`unsigned long`. -/
theorem addM_eq_mod (a b : Nat) (ha : a < M) (hb : b < M) :
    addM a b = (a + b) % M := by
  unfold addM
  split
  · rw [Nat.mod_eq_of_lt]
    omega
  · have h1 : a + b = (a + b - M) + 1 * M := by omega
    nth_rewrite 2 [h1]
    rw [Nat.add_mul_mod_self_right, Nat.mod_eq_of_lt (by omega)]

theorem decM_of_pos (a : Nat) (h : 1 ≤ a) : decM a = a - 1 := by
  cases a with
  | zero => omega
  | succ n => rfl

theorem writeMem_same (f : Nat → Nat) (i v : Nat) : writeMem f i v i = v := by
  simp [writeMem]

theorem writeMem_other (f : Nat → Nat) (i v j : Nat) (h : j ≠ i) :
    writeMem f i v j = f j := by
  simp [writeMem, h]

/-! ## Behaviour of the pop loops under their precondition -/

/-- Full behaviour of `popStackWithoutBuffer` when the pop count does
not exceed the stack pointer: the capacity is untouched, the stack
pointer drops by `n`, and exactly the vacated slots are zeroed. -/
theorem popStackWithoutBuffer_spec (n : Nat) :
    ∀ s : Stack, n ≤ s.stackPointer →
      (popStackWithoutBuffer s n).dataSize = s.dataSize ∧
      (popStackWithoutBuffer s n).stackPointer = s.stackPointer - n ∧
      (∀ j, (popStackWithoutBuffer s n).data j =
        if s.stackPointer - n ≤ j ∧ j < s.stackPointer then 0
        else s.data j) := by
  induction n with
  | zero =>
    intro s _
    refine ⟨rfl, by simp [popStackWithoutBuffer], ?_⟩
    intro j
    simp only [popStackWithoutBuffer]
    split
    · omega
    · rfl
  | succ m ih =>
    intro s hn
    have h1 : 1 ≤ s.stackPointer := by omega
    have hdec : decM s.stackPointer = s.stackPointer - 1 :=
      decM_of_pos s.stackPointer h1
    have hstep : popStackWithoutBuffer s (m + 1) =
        popStackWithoutBuffer (popOne s) m := rfl
    have hsp' : (popOne s).stackPointer = s.stackPointer - 1 := by
      simp [popOne, hdec]
    have hds' : (popOne s).dataSize = s.dataSize := rfl
    have hdata : (popOne s).data =
        writeMem s.data (s.stackPointer - 1) 0 := by
      simp [popOne, hdec]
    have hm : m ≤ (popOne s).stackPointer := by omega
    obtain ⟨ih1, ih2, ih3⟩ := ih (popOne s) hm
    refine ⟨by rw [hstep, ih1, hds'],
      by rw [hstep, ih2, hsp']; omega, ?_⟩
    intro j
    rw [hstep, ih3 j, hsp', hdata]
    simp only [writeMem]
    split_ifs <;> omega

/-- Full behaviour of `popStackToBuffer` when the pop count does not
exceed the stack pointer: same state change as
`popStackWithoutBuffer`, and the buffer receives the popped bytes in
top-first order. -/
theorem popStackToBuffer_spec (n : Nat) :
    ∀ s : Stack, n ≤ s.stackPointer →
      (popStackToBuffer s n).1.dataSize = s.dataSize ∧
      (popStackToBuffer s n).1.stackPointer = s.stackPointer - n ∧
      (∀ j, (popStackToBuffer s n).1.data j =
        if s.stackPointer - n ≤ j ∧ j < s.stackPointer then 0
        else s.data j) ∧
      (popStackToBuffer s n).2 =
        (List.range n).map (fun i => s.data (s.stackPointer - 1 - i)) := by
  induction n with
  | zero =>
    intro s _
    refine ⟨rfl, rfl, ?_, by simp [popStackToBuffer]⟩
    intro j
    simp only [popStackToBuffer]
    split
    · omega
    · rfl
  | succ m ih =>
    intro s hn
    have h1 : 1 ≤ s.stackPointer := by omega
    have hdec : decM s.stackPointer = s.stackPointer - 1 :=
      decM_of_pos s.stackPointer h1
    have hstep : popStackToBuffer s (m + 1) =
        ((popStackToBuffer (popOne s) m).1,
          s.data (decM s.stackPointer) ::
            (popStackToBuffer (popOne s) m).2) := by
      simp only [popStackToBuffer, popOne]
    have hsp' : (popOne s).stackPointer = s.stackPointer - 1 := by
      simp [popOne, hdec]
    have hds' : (popOne s).dataSize = s.dataSize := rfl
    have hdata : (popOne s).data =
        writeMem s.data (s.stackPointer - 1) 0 := by
      simp [popOne, hdec]
    have hm : m ≤ (popOne s).stackPointer := by omega
    obtain ⟨ih1, ih2, ih3, ih4⟩ := ih (popOne s) hm
    refine ⟨by rw [hstep]; rw [ih1, hds'],
      by rw [hstep]; rw [ih2, hsp']; omega, ?_, ?_⟩
    · intro j
      rw [hstep]
      simp only
      rw [ih3 j, hsp', hdata]
      simp only [writeMem]
      split_ifs <;> omega
    · rw [hstep]
      simp only
      rw [ih4, hdec, List.range_succ_eq_map]
      simp only [List.map_cons, List.map_map]
      congr 1
      apply List.map_congr_left
      intro i hi
      simp only [Function.comp_apply]
      rw [hsp', hdata]
      rw [writeMem_other]
      · congr 1
        omega
      · simp only [List.mem_range] at hi
        omega

/-! ## Behaviour of the growth loop and of push -/

/-- With positive fetched steps bounded by `B`, no counter wrap, and
fuel at least the shortfall, the growth loop ends with the stack
pointer strictly below the capacity; the capacity never decreases, is
still representable, and equals the old capacity plus the sum of the
steps fetched at the consecutive configuration reads `k`, `k + 1`, …
performed by the loop. -/
theorem growLoop_spec (step : Nat → Nat) (B sp : Nat)
    (hB : ∀ j, 1 ≤ step j ∧ step j ≤ B) (hspB : sp + B < M) :
    ∀ fuel ds k, ds < M → sp + 1 ≤ ds + fuel →
      sp < (growLoop step sp fuel ds k).1 ∧
      (growLoop step sp fuel ds k).1 < M ∧
      ds ≤ (growLoop step sp fuel ds k).1 ∧
      k ≤ (growLoop step sp fuel ds k).2 ∧
      (growLoop step sp fuel ds k).1 =
        ds + Finset.sum (Finset.Ico k (growLoop step sp fuel ds k).2) step := by
  intro fuel
  induction fuel with
  | zero =>
    intro ds k hds hfuel
    simp only [growLoop]
    refine ⟨by omega, hds, le_refl ds, le_refl k, ?_⟩
    rw [Finset.Ico_self, Finset.sum_empty]
    omega
  | succ f ih =>
    intro ds k hds hfuel
    by_cases hcond : ds ≤ sp
    · have hstepk : 1 ≤ step k ∧ step k ≤ B := hB k
      have hlt : ds + step k < M := by omega
      have haddM : addM ds (step k) = ds + step k := by
        unfold addM
        rw [if_pos hlt]
      have hunfold : growLoop step sp (f + 1) ds k =
          growLoop step sp f (addM ds (step k)) (k + 1) := by
        simp only [growLoop, if_pos hcond]
      obtain ⟨ih1, ih2, ih3, ih4, ih5⟩ :=
        ih (addM ds (step k)) (k + 1) (by omega) (by rw [haddM]; omega)
      rw [hunfold]
      have hsingle : Finset.sum (Finset.Ico k (k + 1)) step = step k := by
        simp
      have hconsec : Finset.sum (Finset.Ico k (k + 1)) step +
          Finset.sum (Finset.Ico (k + 1)
            (growLoop step sp f (addM ds (step k)) (k + 1)).2) step =
          Finset.sum (Finset.Ico k
            (growLoop step sp f (addM ds (step k)) (k + 1)).2) step :=
        Finset.sum_Ico_consecutive step (by omega) (by omega)
      refine ⟨ih1, ih2, by omega, by omega, by omega⟩
    · have hunfold : growLoop step sp (f + 1) ds k = (ds, k) := by
        simp only [growLoop, if_neg hcond]
      rw [hunfold]
      refine ⟨by omega, hds, le_refl ds, le_refl k, ?_⟩
      rw [Finset.Ico_self, Finset.sum_empty]
      omega

/-- One push iteration under the configuration contract: the stack
pointer advances by one, the invariant is preserved, the capacity can
only grow (by the sum of the freshly fetched steps), and exactly the
byte at the old stack pointer is stored. -/
theorem pushByte_spec (step : Nat → Nat) (B : Nat) (s : Stack) (k b : Nat)
    (hB : ∀ j, 1 ≤ step j ∧ step j ≤ B)
    (hInv : StackInv s) (hbound : s.stackPointer + 1 + B ≤ M) :
    (pushByte step (s, k) b).1.stackPointer = s.stackPointer + 1 ∧
    StackInv (pushByte step (s, k) b).1 ∧
    s.dataSize ≤ (pushByte step (s, k) b).1.dataSize ∧
    k ≤ (pushByte step (s, k) b).2 ∧
    (pushByte step (s, k) b).1.dataSize =
      s.dataSize +
        Finset.sum (Finset.Ico k (pushByte step (s, k) b).2) step ∧
    (pushByte step (s, k) b).1.data = writeMem s.data s.stackPointer b := by
  have hB0 := hB 0
  have hspB : s.stackPointer + B < M := by omega
  obtain ⟨g1, g2, g3, g4, g5⟩ := growLoop_spec step B s.stackPointer hB hspB
    (s.stackPointer + 1) s.dataSize k hInv.2 (by omega)
  have hadd : addM s.stackPointer 1 = s.stackPointer + 1 := by
    unfold addM
    rw [if_pos (by omega)]
  refine ⟨hadd, ⟨?_, g2⟩, g3, g4, g5, rfl⟩
  show addM s.stackPointer 1 ≤
    (growLoop step s.stackPointer (s.stackPointer + 1) s.dataSize k).1
  rw [hadd]
  omega

/-- Full behaviour of `pushToStack` under the configuration contract
(positive bounded steps) and no counter wrap: the stack pointer
advances by the pushed length, the invariant is preserved, the
capacity grows by the sum of the freshly fetched expansion steps, all
bytes outside the written region `[old sp, old sp + |S|)` are
untouched, and the written region holds exactly `S` in order. -/
theorem pushToStack_spec (step : Nat → Nat) (B : Nat)
    (hB : ∀ j, 1 ≤ step j ∧ step j ≤ B) :
    ∀ (S : List Nat) (s : Stack) (k : Nat), StackInv s →
      s.stackPointer + S.length + B ≤ M →
      (pushToStack step s k S).1.stackPointer =
        s.stackPointer + S.length ∧
      StackInv (pushToStack step s k S).1 ∧
      s.dataSize ≤ (pushToStack step s k S).1.dataSize ∧
      k ≤ (pushToStack step s k S).2 ∧
      (pushToStack step s k S).1.dataSize =
        s.dataSize +
          Finset.sum (Finset.Ico k (pushToStack step s k S).2) step ∧
      (∀ j, j < s.stackPointer →
        (pushToStack step s k S).1.data j = s.data j) ∧
      (∀ j, s.stackPointer + S.length ≤ j →
        (pushToStack step s k S).1.data j = s.data j) ∧
      (List.range S.length).map
        (fun i => (pushToStack step s k S).1.data (s.stackPointer + i)) =
        S := by
  intro S
  induction S with
  | nil =>
    intro s k hInv _
    refine ⟨by simp [pushToStack], hInv, le_refl _, le_refl _, ?_,
      fun j _ => rfl, fun j _ => rfl, by simp⟩
    simp [pushToStack, Finset.Ico_self]
  | cons b T ih =>
    intro s k hInv hbound
    have hstep : pushToStack step s k (b :: T) =
        pushToStack step (pushByte step (s, k) b).1
          (pushByte step (s, k) b).2 T := rfl
    obtain ⟨p1, p2, p3, p4, p5, p6⟩ :=
      pushByte_spec step B s k b hB hInv (by simp at hbound; omega)
    obtain ⟨ih1, ih2, ih3, ih4, ih5, ih6, ih7, ih8⟩ :=
      ih (pushByte step (s, k) b).1 (pushByte step (s, k) b).2 p2
        (by simp at hbound ⊢; omega)
    rw [hstep]
    have hconsec :
        Finset.sum (Finset.Ico k (pushByte step (s, k) b).2) step +
          Finset.sum (Finset.Ico (pushByte step (s, k) b).2
            (pushToStack step (pushByte step (s, k) b).1
              (pushByte step (s, k) b).2 T).2) step =
        Finset.sum (Finset.Ico k
          (pushToStack step (pushByte step (s, k) b).1
            (pushByte step (s, k) b).2 T).2) step :=
      Finset.sum_Ico_consecutive step p4 ih4
    refine ⟨by simp; omega, ih2, by omega, by omega, by omega,
      ?_, ?_, ?_⟩
    · intro j hj
      rw [ih6 j (by omega), p6, writeMem_other]
      omega
    · intro j hj
      rw [List.length_cons] at hj
      rw [ih7 j (by omega), p6, writeMem_other]
      omega
    · simp only [List.length_cons, List.range_succ_eq_map, List.map_cons,
        List.map_map]
      congr 1
      · rw [Nat.add_zero, ih6 s.stackPointer (by omega), p6, writeMem_same]
      · refine Eq.trans (List.map_congr_left ?_) ih8
        intro i hi
        simp only [Function.comp_apply]
        congr 1
        omega

/-! ## Behaviour of slicing -/

/-- With `from ≤ to` and `to` representable, the `unsigned long`
arithmetic in `getStackSlice` computes exactly the forward copy of
bytes `[from, to)`. -/
theorem getStackSlice_eq (s : Stack) (fr tc : Nat) (h1 : fr ≤ tc)
    (h2 : tc < M) :
    getStackSlice s fr tc =
      (List.range (tc - fr)).map (fun i => s.data (fr + i)) := by
  have hM := M_pos
  have hfr : fr % M = fr := Nat.mod_eq_of_lt (by omega)
  have hlen : (tc + (M - fr % M)) % M = tc - fr := by
    rw [hfr]
    have hx : tc + (M - fr) = (tc - fr) + 1 * M := by omega
    rw [hx, Nat.add_mul_mod_self_right, Nat.mod_eq_of_lt (by omega)]
  unfold getStackSlice
  rw [hlen]
  apply List.map_congr_left
  intro i hi
  simp only [List.mem_range] at hi
  congr 1
  exact Nat.mod_eq_of_lt (by omega)

/-! ## One-operation and trace-level state lemmas -/

/-- Any single operation run under its side condition preserves the
state invariant, moves the stack pointer by the byte delta of the
operation, and never shrinks the capacity. -/
theorem applyOp_spec (B : Nat) (s : Stack) (op : Op) (hInv : StackInv s)
    (hok : okOp B s op) :
    StackInv (applyOp s op) ∧
    (applyOp s op).stackPointer + poppedBytes op =
      s.stackPointer + pushedBytes op ∧
    s.dataSize ≤ (applyOp s op).dataSize := by
  cases op with
  | push S step =>
    obtain ⟨hB, hbound⟩ := hok
    obtain ⟨h1, h2, h3, _, _, _, _, _⟩ :=
      pushToStack_spec step B hB S s 0 hInv hbound
    refine ⟨h2, ?_, h3⟩
    show (pushToStack step s 0 S).1.stackPointer + 0 = _
    rw [h1]
    rfl
  | popDiscard n =>
    have hn : n ≤ s.stackPointer := hok
    obtain ⟨h1, h2, _⟩ := popStackWithoutBuffer_spec n s hn
    have ha : applyOp s (Op.popDiscard n) = popStackWithoutBuffer s n := rfl
    have hpo : poppedBytes (Op.popDiscard n) = n := rfl
    have hpu : pushedBytes (Op.popDiscard n) = 0 := rfl
    rw [ha, hpo, hpu]
    have hInv2 := hInv
    unfold StackInv at hInv2 ⊢
    refine ⟨⟨by omega, by omega⟩, by omega, by omega⟩
  | popBuf n =>
    have hn : n ≤ s.stackPointer := hok
    obtain ⟨h1, h2, _, _⟩ := popStackToBuffer_spec n s hn
    have ha : applyOp s (Op.popBuf n) = (popStackToBuffer s n).1 := rfl
    have hpo : poppedBytes (Op.popBuf n) = n := rfl
    have hpu : pushedBytes (Op.popBuf n) = 0 := rfl
    rw [ha, hpo, hpu]
    have hInv2 := hInv
    unfold StackInv at hInv2 ⊢
    refine ⟨⟨by omega, by omega⟩, by omega, by omega⟩
  | pop n =>
    have hn : n ≤ s.stackPointer := hok
    obtain ⟨h1, h2, _, _⟩ := popStackToBuffer_spec n s hn
    have ha : applyOp s (Op.pop n) = (popStackToBuffer s n).1 := rfl
    have hpo : poppedBytes (Op.pop n) = n := rfl
    have hpu : pushedBytes (Op.pop n) = 0 := rfl
    rw [ha, hpo, hpu]
    have hInv2 := hInv
    unfold StackInv at hInv2 ⊢
    refine ⟨⟨by omega, by omega⟩, by omega, by omega⟩
  | slice a b =>
    exact ⟨hInv, by simp [applyOp, poppedBytes, pushedBytes], le_refl _⟩

/-- Trace-level accounting: a valid trace preserves the invariant and
the final stack pointer balances total pushes against total pops. -/
theorem runOps_spec (B : Nat) :
    ∀ (ops : List Op) (s : Stack), StackInv s → validTrace B s ops →
      StackInv (runOps s ops) ∧
      (runOps s ops).stackPointer + totalPopped ops =
        s.stackPointer + totalPushed ops ∧
      s.dataSize ≤ (runOps s ops).dataSize := by
  intro ops
  induction ops with
  | nil =>
    intro s hInv _
    exact ⟨hInv, by simp [runOps, totalPopped, totalPushed], le_refl _⟩
  | cons op ops ih =>
    intro s hInv hvt
    obtain ⟨hok, hvt2⟩ := hvt
    obtain ⟨h1, h2, h3⟩ := applyOp_spec B s op hInv hok
    obtain ⟨ih1, ih2, ih3⟩ := ih (applyOp s op) h1 hvt2
    have hrun : runOps s (op :: ops) = runOps (applyOp s op) ops := rfl
    have htp : totalPushed (op :: ops) = pushedBytes op + totalPushed ops := by
      simp [totalPushed]
    have hto : totalPopped (op :: ops) = poppedBytes op + totalPopped ops := by
      simp [totalPopped]
    rw [hrun, htp, hto]
    exact ⟨ih1, by omega, by omega⟩

/-- A prefix of a valid trace is a valid trace. -/
theorem validTrace_prefix (B : Nat) :
    ∀ (p q : List Op) (s : Stack), validTrace B s (p ++ q) →
      validTrace B s p := by
  intro p
  induction p with
  | nil => intro q s _; trivial
  | cons op p ih =>
    intro q s hv
    obtain ⟨hok, hvt⟩ := hv
    exact ⟨hok, ih q (applyOp s op) hvt⟩

/-! ## Further helper lemmas -/

/-- Reversing a forward window read of memory gives the backward
window read. -/
theorem map_range_shift_reverse (g : Nat → Nat) (sp n : Nat) :
    ((List.range n).map (fun j => g (sp + j))).reverse =
      (List.range n).map (fun i => g (sp + n - 1 - i)) := by
  apply List.ext_getElem
  · simp
  · intro i h1 h2
    rw [List.getElem_reverse]
    simp only [List.getElem_map, List.getElem_range, List.length_map,
      List.length_range] at h1 h2 ⊢
    congr 1
    omega

/-- The state change of `popStackToBuffer` is that of
`popStackWithoutBuffer`. -/
theorem popTB_eq_popWB (n : Nat) :
    ∀ s : Stack, (popStackToBuffer s n).1 = popStackWithoutBuffer s n := by
  induction n with
  | zero => intro s; rfl
  | succ m ih =>
    intro s
    have h1 : (popStackToBuffer s (m + 1)).1 =
        (popStackToBuffer (popOne s) m).1 := by
      simp only [popStackToBuffer, popOne]
    have h2 : popStackWithoutBuffer s (m + 1) =
        popStackWithoutBuffer (popOne s) m := rfl
    rw [h1, h2, ih]

/-- Pops never touch the capacity field, with no precondition at
all. -/
theorem popWB_ds (n : Nat) :
    ∀ s : Stack, (popStackWithoutBuffer s n).dataSize = s.dataSize := by
  induction n with
  | zero => intro s; rfl
  | succ m ih =>
    intro s
    have h : popStackWithoutBuffer s (m + 1) =
        popStackWithoutBuffer (popOne s) m := rfl
    rw [h, ih]
    rfl

/-- The stack pointer after `n` 64-bit decrements, with no
precondition relating `n` to the stack pointer. -/
theorem popWB_sp (n : Nat) :
    ∀ s : Stack, s.stackPointer < M →
      (popStackWithoutBuffer s n).stackPointer =
        (s.stackPointer + n * (M - 1)) % M := by
  induction n with
  | zero =>
    intro s h
    simp [popStackWithoutBuffer, Nat.mod_eq_of_lt h]
  | succ m ih =>
    intro s h
    have hstep : popStackWithoutBuffer s (m + 1) =
        popStackWithoutBuffer (popOne s) m := rfl
    have hsp : (popOne s).stackPointer = (s.stackPointer + (M - 1)) % M := by
      simp [popOne, decM_eq_mod s.stackPointer h]
    rw [hstep, ih (popOne s) (by rw [hsp]; exact Nat.mod_lt _ M_pos), hsp,
      Nat.mod_add_mod]
    congr 1
    ring

/-! ## The claims -/

/-- **C1**: for every byte sequence `S` of length `N`, pushing `S`
with `push(S, N)` and then calling `pop(N)` returns exactly
`reverse(S)` (most-recently-pushed byte first), regardless of the
stack's prior contents — stated for any well-formed stack, any
positive bounded step configuration, and any fetch counter, with no
counter wrap. -/
theorem push_pop_roundtrip (step : Nat → Nat) (B : Nat) (s : Stack)
    (S : List Nat) (k : Nat)
    (hB : ∀ j, 1 ≤ step j ∧ step j ≤ B)
    (hInv : StackInv s)
    (hbound : s.stackPointer + S.length + B ≤ M) :
    (popStack (pushToStack step s k S).1 S.length).2 = S.reverse := by
  obtain ⟨h1, h2, h3, h4, h5, h6, h7, h8⟩ :=
    pushToStack_spec step B hB S s k hInv hbound
  obtain ⟨q1, q2, q3, q4⟩ :=
    popStackToBuffer_spec S.length (pushToStack step s k S).1
      (by rw [h1]; omega)
  show (popStackToBuffer (pushToStack step s k S).1 S.length).2 = S.reverse
  have hmr := map_range_shift_reverse
    (pushToStack step s k S).1.data s.stackPointer S.length
  rw [h8] at hmr
  rw [q4, h1, hmr]

/-- Witness for `push_pop_roundtrip`: pushing `[1, 2, 3]` on a stack
of capacity 4 holding 2 bytes and popping 3 returns the reversal. -/
theorem push_pop_roundtrip_witness :
    StackInv ⟨4, 2, fun _ => 7⟩ ∧ (2 : Nat) + 3 + 4 ≤ M ∧
    (popStack (pushToStack (fun _ => 4) ⟨4, 2, fun _ => 7⟩ 0
        [1, 2, 3]).1 3).2 = [1, 2, 3].reverse :=
  ⟨⟨by norm_num, by norm_num [M]⟩, by norm_num [M],
    push_pop_roundtrip (fun _ => 4) 4 ⟨4, 2, fun _ => 7⟩ [1, 2, 3] 0
      (fun j => ⟨by norm_num, by norm_num⟩)
      ⟨by norm_num, by norm_num [M]⟩ (by norm_num [M])⟩

/-- **C2**: starting from `create`, after any sequence of operations
in which every pop's count is at most the current length (and pushes
satisfy the configuration contract with no counter wrap), the length
equals total bytes pushed minus total bytes popped — stated additively
as `length + totalPopped = totalPushed` — and `0 ≤ length ≤ capacity`
holds after every prefix of the sequence. -/
theorem length_invariant (init B : Nat) (mem : Nat → Nat) (ops : List Op)
    (hinit : init < M)
    (hv : validTrace B (newStack init mem) ops) :
    (runOps (newStack init mem) ops).stackPointer + totalPopped ops =
      totalPushed ops ∧
    ∀ p q, ops = p ++ q →
      (runOps (newStack init mem) p).stackPointer ≤
        (runOps (newStack init mem) p).dataSize := by
  have hInv0 : StackInv (newStack init mem) := ⟨Nat.zero_le _, hinit⟩
  obtain ⟨h1, h2, h3⟩ := runOps_spec B ops (newStack init mem) hInv0 hv
  constructor
  · have hz : (newStack init mem).stackPointer = 0 := rfl
    omega
  · intro p q hpq
    subst hpq
    have hvp := validTrace_prefix B p q (newStack init mem) hv
    obtain ⟨hp1, _, _⟩ := runOps_spec B p (newStack init mem) hInv0 hvp
    exact hp1.1

/-- Witness for `length_invariant`: push two bytes then pop one on a
fresh stack of capacity 4; the final length satisfies
`length + 1 = 2`. -/
theorem length_invariant_witness :
    (4 : Nat) < M ∧
    validTrace 4 (newStack 4 (fun _ => 0))
      [Op.push [1, 2] (fun _ => 4), Op.popDiscard 1] ∧
    (runOps (newStack 4 (fun _ => 0))
        [Op.push [1, 2] (fun _ => 4), Op.popDiscard 1]).stackPointer +
      totalPopped [Op.push [1, 2] (fun _ => 4), Op.popDiscard 1] =
      totalPushed [Op.push [1, 2] (fun _ => 4), Op.popDiscard 1] := by
  have hv : validTrace 4 (newStack 4 (fun _ => 0))
      [Op.push [1, 2] (fun _ => 4), Op.popDiscard 1] := by
    refine ⟨⟨fun j => ⟨by norm_num, by norm_num⟩, by decide⟩, ?_, trivial⟩
    show (1 : Nat) ≤
      (applyOp (newStack 4 (fun _ => 0))
        (Op.push [1, 2] (fun _ => 4))).stackPointer
    decide
  exact ⟨by norm_num [M], hv,
    (length_invariant 4 4 (fun _ => 0) _ (by norm_num [M]) hv).1⟩

/-- **C3**: during a push iteration, before the byte is stored, the
capacity is grown — by the expansion step freshly fetched from the
configuration at each growth event (the consecutive reads
`k, k + 1, …` of the step oracle) — until `length < capacity`; no
growth event happens when there is room; and the bytes `[0, length)`
are preserved across the reallocations, intact and in place. -/
theorem push_growth (step : Nat → Nat) (B : Nat) (s : Stack) (k b : Nat)
    (hB : ∀ j, 1 ≤ step j ∧ step j ≤ B)
    (hInv : StackInv s)
    (hbound : s.stackPointer + 1 + B ≤ M) :
    s.stackPointer < (pushByte step (s, k) b).1.dataSize ∧
    k ≤ (pushByte step (s, k) b).2 ∧
    (pushByte step (s, k) b).1.dataSize =
      s.dataSize +
        Finset.sum (Finset.Ico k (pushByte step (s, k) b).2) step ∧
    (s.dataSize ≤ s.stackPointer → k < (pushByte step (s, k) b).2) ∧
    (s.stackPointer < s.dataSize →
      (pushByte step (s, k) b).1.dataSize = s.dataSize ∧
      (pushByte step (s, k) b).2 = k) ∧
    (∀ j, j < s.stackPointer →
      (pushByte step (s, k) b).1.data j = s.data j) := by
  have hB0 := hB 0
  have hspB : s.stackPointer + B < M := by omega
  obtain ⟨g1, g2, g3, g4, g5⟩ := growLoop_spec step B s.stackPointer hB hspB
    (s.stackPointer + 1) s.dataSize k hInv.2 (by omega)
  have hds : (pushByte step (s, k) b).1.dataSize =
      (growLoop step s.stackPointer (s.stackPointer + 1) s.dataSize k).1 :=
    rfl
  have hk : (pushByte step (s, k) b).2 =
      (growLoop step s.stackPointer (s.stackPointer + 1) s.dataSize k).2 :=
    rfl
  have hdata : (pushByte step (s, k) b).1.data =
      writeMem s.data s.stackPointer b := rfl
  refine ⟨by rw [hds]; exact g1, by rw [hk]; exact g4, ?_, ?_, ?_, ?_⟩
  · rw [hds, hk]
    exact g5
  · intro hfull
    by_cases hkk :
        k < (growLoop step s.stackPointer (s.stackPointer + 1)
          s.dataSize k).2
    · rw [hk]; exact hkk
    · exfalso
      have hkeq : (growLoop step s.stackPointer (s.stackPointer + 1)
          s.dataSize k).2 = k := by omega
      rw [hkeq, Finset.Ico_self, Finset.sum_empty] at g5
      omega
  · intro hroom
    have hloop : growLoop step s.stackPointer (s.stackPointer + 1)
        s.dataSize k = (s.dataSize, k) := by
      have hneg : ¬(s.dataSize ≤ s.stackPointer) := by omega
      simp only [growLoop, if_neg hneg]
    rw [hds, hk, hloop]
    exact ⟨rfl, rfl⟩
  · intro j hj
    rw [hdata, writeMem_other]
    omega

/-- Witness for `push_growth`: pushing one byte on a full stack
(`length = capacity = 4`) with expansion step 4 triggers exactly one
growth event. -/
theorem push_growth_witness :
    StackInv ⟨4, 4, fun _ => 7⟩ ∧ (4 : Nat) + 1 + 4 ≤ M ∧
    ((4 : Nat) < (pushByte (fun _ => 4) (⟨4, 4, fun _ => 7⟩, 0) 9).1.dataSize ∧
     (0 : Nat) ≤ (pushByte (fun _ => 4) (⟨4, 4, fun _ => 7⟩, 0) 9).2 ∧
     (pushByte (fun _ => 4) (⟨4, 4, fun _ => 7⟩, 0) 9).1.dataSize =
       4 + Finset.sum (Finset.Ico 0
         (pushByte (fun _ => 4) (⟨4, 4, fun _ => 7⟩, 0) 9).2) (fun _ => 4) ∧
     ((4 : Nat) ≤ 4 →
       (0 : Nat) < (pushByte (fun _ => 4) (⟨4, 4, fun _ => 7⟩, 0) 9).2) ∧
     ((4 : Nat) < 4 →
       (pushByte (fun _ => 4) (⟨4, 4, fun _ => 7⟩, 0) 9).1.dataSize = 4 ∧
       (pushByte (fun _ => 4) (⟨4, 4, fun _ => 7⟩, 0) 9).2 = 0) ∧
     (∀ j, j < 4 →
       (pushByte (fun _ => 4) (⟨4, 4, fun _ => 7⟩, 0) 9).1.data j =
         (fun _ => (7 : Nat)) j)) :=
  ⟨⟨by norm_num, by norm_num [M]⟩, by norm_num [M],
    push_growth (fun _ => 4) 4 ⟨4, 4, fun _ => 7⟩ 0 9
      (fun j => ⟨by norm_num, by norm_num⟩)
      ⟨by norm_num, by norm_num [M]⟩ (by norm_num [M])⟩

/-- **C4**: for `0 ≤ from ≤ to ≤ capacity` (capacity representable),
`slice(from, to)` returns a buffer of length `to − from` whose `i`-th
byte is the backing-store byte `data[from + i]` — forward order, not
reversed. -/
theorem slice_forward (s : Stack) (fr tc : Nat)
    (h1 : fr ≤ tc) (h2 : tc ≤ s.dataSize) (h3 : s.dataSize < M) :
    (getStackSlice s fr tc).length = tc - fr ∧
    ∀ i, i < tc - fr →
      (getStackSlice s fr tc).getD i 0 = s.data (fr + i) := by
  rw [getStackSlice_eq s fr tc h1 (by omega)]
  constructor
  · simp
  · intro i hi
    rw [List.getD_eq_getElem _ _ (by simpa using hi)]
    simp

/-- Witness for `slice_forward`: slicing `[1, 4)` of a stack whose
memory holds `10 + j` at offset `j` gives bytes `11, 12, 13`. -/
theorem slice_forward_witness :
    (1 : Nat) ≤ 4 ∧ (4 : Nat) ≤ 4 ∧ (4 : Nat) < M ∧
    ((getStackSlice ⟨4, 3, fun j => j + 10⟩ 1 4).length = 4 - 1 ∧
     ∀ i, i < 4 - 1 →
       (getStackSlice ⟨4, 3, fun j => j + 10⟩ 1 4).getD i 0 =
         (fun j => j + 10) (1 + i)) :=
  ⟨by norm_num, by norm_num, by norm_num [M],
    slice_forward ⟨4, 3, fun j => j + 10⟩ 1 4 (by norm_num) (by norm_num)
      (by norm_num [M])⟩

/-- **C5**: after popping `k` bytes (by any of the three pop
functions) from a stack of length at least `k`, the vacated
backing-store slots — indices `[length − k, length)` before the pop —
read as zero through a slice extending past the new length. -/
theorem zero_on_pop (s : Stack) (n : Nat) (hn : n ≤ s.stackPointer)
    (hInv : StackInv s) :
    ∀ i, s.stackPointer - n ≤ i → i < s.stackPointer →
      (getStackSlice (popStackWithoutBuffer s n) 0
        s.stackPointer).getD i 0 = 0 ∧
      (getStackSlice (popStackToBuffer s n).1 0
        s.stackPointer).getD i 0 = 0 ∧
      (getStackSlice (popStack s n).1 0 s.stackPointer).getD i 0 = 0 := by
  intro i hi1 hi2
  have hspM : s.stackPointer < M := by
    obtain ⟨ha, hb⟩ := hInv
    omega
  obtain ⟨w1, w2, w3⟩ := popStackWithoutBuffer_spec n s hn
  have hslice :
      ∀ t : Stack, (∀ j, t.data j =
          if s.stackPointer - n ≤ j ∧ j < s.stackPointer then 0
          else s.data j) →
        (getStackSlice t 0 s.stackPointer).getD i 0 = 0 := by
    intro t ht
    rw [getStackSlice_eq t 0 s.stackPointer (Nat.zero_le _) hspM]
    rw [List.getD_eq_getElem _ _ (by simpa using hi2)]
    simp only [List.getElem_map, List.getElem_range, Nat.zero_add]
    rw [ht i, if_pos ⟨hi1, hi2⟩]
  refine ⟨hslice _ w3, ?_, ?_⟩
  · rw [popTB_eq_popWB]
    exact hslice _ w3
  · show (getStackSlice (popStackToBuffer s n).1 0
      s.stackPointer).getD i 0 = 0
    rw [popTB_eq_popWB]
    exact hslice _ w3

/-- Witness for `zero_on_pop`: popping 2 bytes from a 3-byte stack
zeroes slots 1 and 2; checked at slot 1. -/
theorem zero_on_pop_witness :
    (2 : Nat) ≤ 3 ∧ StackInv ⟨4, 3, fun _ => 7⟩ ∧
    (3 : Nat) - 2 ≤ 1 ∧ (1 : Nat) < 3 ∧
    ((getStackSlice (popStackWithoutBuffer ⟨4, 3, fun _ => 7⟩ 2) 0
        3).getD 1 0 = 0 ∧
     (getStackSlice (popStackToBuffer ⟨4, 3, fun _ => 7⟩ 2).1 0
        3).getD 1 0 = 0 ∧
     (getStackSlice (popStack ⟨4, 3, fun _ => 7⟩ 2).1 0
        3).getD 1 0 = 0) :=
  ⟨by norm_num, ⟨by norm_num, by norm_num [M]⟩, by norm_num, by norm_num,
    zero_on_pop ⟨4, 3, fun _ => 7⟩ 2 (by norm_num)
      ⟨by norm_num, by norm_num [M]⟩ 1 (by norm_num) (by norm_num)⟩

/-- **C6**: calling any pop with `count` greater than the current
length underflows: the new stack pointer is `(length − count) mod
2 ^ 64` (computed in `ℤ`) — concretely the very large unsigned value
`2 ^ 64 − (count − length)` — with no guard in the code. -/
theorem pop_underflow (s : Stack) (n : Nat) (hsp : s.stackPointer < M)
    (hgt : s.stackPointer < n) (hnM : n ≤ M) :
    ((popStackWithoutBuffer s n).stackPointer : Int) =
      ((s.stackPointer : Int) - n) % (M : Int) ∧
    ((popStackToBuffer s n).1.stackPointer : Int) =
      ((s.stackPointer : Int) - n) % (M : Int) ∧
    ((popStack s n).1.stackPointer : Int) =
      ((s.stackPointer : Int) - n) % (M : Int) ∧
    (popStackWithoutBuffer s n).stackPointer =
      M - (n - s.stackPointer) := by
  have h := popWB_sp n s hsp
  have hM : (1 : Nat) ≤ M := M_pos
  have key : (((s.stackPointer + n * (M - 1)) % M : Nat) : Int) =
      ((s.stackPointer : Int) - n) % (M : Int) := by
    push_cast [Nat.cast_sub hM]
    have he : (s.stackPointer : Int) + n * ((M : Int) - 1) =
        ((s.stackPointer : Int) - n) + n * M := by ring
    rw [he, Int.add_mul_emod_self]
  have heq : s.stackPointer + n * (M - 1) =
      M * (n - 1) + (M - (n - s.stackPointer)) := by
    zify [hM, show (1 : Nat) ≤ n by omega,
      show s.stackPointer ≤ n by omega,
      show n - s.stackPointer ≤ M by omega]
    ring
  refine ⟨by rw [h]; exact key, ?_, ?_, ?_⟩
  · rw [popTB_eq_popWB, h]
    exact key
  · show ((popStackToBuffer s n).1.stackPointer : Int) = _
    rw [popTB_eq_popWB, h]
    exact key
  · rw [h, heq, Nat.mul_add_mod]
    exact Nat.mod_eq_of_lt (by omega)

/-- Witness for `pop_underflow`: popping 1 byte from an empty stack
wraps the stack pointer to `(0 - 1) mod 2 ^ 64 = 2 ^ 64 - 1`. -/
theorem pop_underflow_witness :
    (0 : Nat) < M ∧ (0 : Nat) < 1 ∧ (1 : Nat) ≤ M ∧
    (((popStackWithoutBuffer ⟨4, 0, fun _ => 7⟩ 1).stackPointer : Int) =
        (((0 : Nat) : Int) - (1 : Nat)) % (M : Int) ∧
     ((popStackToBuffer ⟨4, 0, fun _ => 7⟩ 1).1.stackPointer : Int) =
        (((0 : Nat) : Int) - (1 : Nat)) % (M : Int) ∧
     ((popStack ⟨4, 0, fun _ => 7⟩ 1).1.stackPointer : Int) =
        (((0 : Nat) : Int) - (1 : Nat)) % (M : Int) ∧
     (popStackWithoutBuffer ⟨4, 0, fun _ => 7⟩ 1).stackPointer =
        M - (1 - 0)) :=
  ⟨by norm_num [M], by norm_num, by norm_num [M],
    pop_underflow ⟨4, 0, fun _ => 7⟩ 1 (by norm_num [M]) (by norm_num)
      (by norm_num [M])⟩

/-- **C7**: `getStackSlice` is read-only — it assigns no struct field
and no backing-store byte, so as a state transformation it is the
identity: length, capacity and every byte are unchanged.  The
returned buffer is built by copying byte values out of the store
(value semantics in this embedding), so it is an independent copy. -/
theorem slice_readonly (s : Stack) (fr tc : Nat)
    (h1 : fr ≤ tc) (h2 : tc ≤ s.dataSize) :
    applyOp s (Op.slice fr tc) = s ∧
    (applyOp s (Op.slice fr tc)).stackPointer = s.stackPointer ∧
    (applyOp s (Op.slice fr tc)).dataSize = s.dataSize ∧
    (∀ j, (applyOp s (Op.slice fr tc)).data j = s.data j) ∧
    getStackSlice (applyOp s (Op.slice fr tc)) fr tc =
      getStackSlice s fr tc :=
  ⟨rfl, rfl, rfl, fun _ => rfl, rfl⟩

/-- Witness for `slice_readonly` at a concrete stack and bounds. -/
theorem slice_readonly_witness :
    (0 : Nat) ≤ 4 ∧ (4 : Nat) ≤ 4 ∧
    (applyOp ⟨4, 2, fun _ => 5⟩ (Op.slice 0 4) = ⟨4, 2, fun _ => 5⟩ ∧
     (applyOp ⟨4, 2, fun _ => 5⟩ (Op.slice 0 4)).stackPointer = 2 ∧
     (applyOp ⟨4, 2, fun _ => 5⟩ (Op.slice 0 4)).dataSize = 4 ∧
     (∀ j, (applyOp ⟨4, 2, fun _ => 5⟩ (Op.slice 0 4)).data j =
       (fun _ => (5 : Nat)) j) ∧
     getStackSlice (applyOp ⟨4, 2, fun _ => 5⟩ (Op.slice 0 4)) 0 4 =
       getStackSlice ⟨4, 2, fun _ => 5⟩ 0 4) :=
  ⟨by norm_num, by norm_num,
    slice_readonly ⟨4, 2, fun _ => 5⟩ 0 4 (by norm_num) (by norm_num)⟩

/-- **C8**: no operation shrinks the capacity: under the operation's
side condition, the capacity after is at least the capacity before. -/
theorem capacity_never_shrinks (B : Nat) (s : Stack) (op : Op)
    (hInv : StackInv s) (hok : okOp B s op) :
    s.dataSize ≤ (applyOp s op).dataSize :=
  (applyOp_spec B s op hInv hok).2.2

/-- Witness for `capacity_never_shrinks`: a push on a full stack grows
the capacity, so it certainly does not shrink. -/
theorem capacity_never_shrinks_witness :
    StackInv ⟨4, 4, fun _ => 7⟩ ∧
    okOp 4 ⟨4, 4, fun _ => 7⟩ (Op.push [1, 2, 3] (fun _ => 4)) ∧
    (4 : Nat) ≤
      (applyOp ⟨4, 4, fun _ => 7⟩ (Op.push [1, 2, 3] (fun _ => 4))).dataSize :=
  ⟨⟨by norm_num, by norm_num [M]⟩,
    ⟨fun j => ⟨by norm_num, by norm_num⟩, by decide⟩,
    capacity_never_shrinks 4 ⟨4, 4, fun _ => 7⟩
      (Op.push [1, 2, 3] (fun _ => 4)) ⟨by norm_num, by norm_num [M]⟩
      ⟨fun j => ⟨by norm_num, by norm_num⟩, by decide⟩⟩

/-- **C9**: empty operations: `push(_, 0)` returns the stack and the
fetch counter unchanged (a no-op), and `slice(j, j)` returns a valid
empty buffer while leaving the stack unchanged. -/
theorem empty_ops (step : Nat → Nat) (s : Stack) (k j : Nat) :
    pushToStack step s k [] = (s, k) ∧
    applyOp s (Op.push [] step) = s ∧
    getStackSlice s j j = [] ∧
    applyOp s (Op.slice j j) = s := by
  refine ⟨rfl, rfl, ?_, rfl⟩
  unfold getStackSlice
  have hz : (j + (M - j % M)) % M = 0 := by
    have hmle : j % M ≤ j := Nat.mod_le j M
    have hlt : j % M < M := Nat.mod_lt _ M_pos
    have h2 : j + (M - j % M) = (j - j % M) + M := by omega
    have hdm := Nat.div_add_mod j M
    have h3 : j - j % M = M * (j / M) := by omega
    rw [h2, h3, ← Nat.mul_succ, Nat.mul_mod_right]
  rw [hz]
  rfl

/-- **C10**: the three pop functions never change the capacity field,
for every stack and every count (they never reallocate and take no
configuration input at all). -/
theorem pop_preserves_capacity (s : Stack) (n : Nat) :
    (popStackWithoutBuffer s n).dataSize = s.dataSize ∧
    (popStackToBuffer s n).1.dataSize = s.dataSize ∧
    (popStack s n).1.dataSize = s.dataSize := by
  refine ⟨popWB_ds n s, ?_, ?_⟩
  · rw [popTB_eq_popWB]
    exact popWB_ds n s
  · show (popStackToBuffer s n).1.dataSize = s.dataSize
    rw [popTB_eq_popWB]
    exact popWB_ds n s
